import Mathlib

/-!
# Verification of the Algo-trading-models pipeline

A shallow embedding of the repository's core logic:

* `src/config.py` — the static configuration constants.
* `src/pred.py` — candidate-feature discovery and the bounded combinatorial
  feature-subset search (`trainandselectfeatures`), plus the driving loop
  `runpredictions`.
* `src/clean.py` — duplicate/empty-row removal, missing-value filling,
  schema validation.
* `src/norm.py` — min-max scaling fitted on the training split and applied
  to the current split.
* `src/features.py` — lag-feature construction.

DataFrames are modelled as ordered association lists from column name to a
list of cell values; a missing cell (pandas `NaN`) is `none`.  Floating point
numbers are modelled as rationals.  The sklearn classifier itself is opaque:
the search only consumes the accuracy each feature subset obtains on the
evaluation split, so it is abstracted as an oracle `acc : List String → ℚ`
(sklearn fitting is deterministic for fixed data, so this is a function of
the feature list once the two splits are fixed).
-/

namespace AlgoTrading

/-! ## Configuration (`src/config.py`) -/

def TARGETCOL : String := "Target"

def EXCLUDEFEATURES : List String :=
  ["Date", "Open", "High", "Low", "Close", "Volume", TARGETCOL]

def CANDIDATEFEATUREPREFIXES : List String := ["Feature", "Signal", "Metric"]

def LAGSUFFIX : String := "Lag1"

def NORMALIZECOLS : List String :=
  ["FeatureA", "FeatureA" ++ LAGSUFFIX,
   "FeatureB", "FeatureB" ++ LAGSUFFIX,
   "FeatureC", "FeatureC" ++ LAGSUFFIX,
   "SignalX", "SignalX" ++ LAGSUFFIX]

/-! ## Feature discovery (`src/pred.py`, `discovercandidatefeatures`)

The source walks the column list once; a column is kept when it is not in
the exclusion list and either ends with the lag suffix or starts with one of
the candidate prefixes (each branch `continue`s, so a column is appended at
most once per occurrence in the input). -/

/-- Python's `str.endswith`, computed on the character list (Lean's own
`String.endsWith` is byte-position based and kernel-opaque). -/
def endswith (s suffix : String) : Bool := suffix.data.isSuffixOf s.data

/-- Python's `str.startswith`, computed on the character list. -/
def startswith (s p : String) : Bool := p.data.isPrefixOf s.data

def matchesCandidate (col : String) : Bool :=
  if col ∈ EXCLUDEFEATURES then false
  else if endswith col LAGSUFFIX then true
  else CANDIDATEFEATUREPREFIXES.any (fun p => startswith col p)

def discovercandidatefeatures (columns : List String) : List String :=
  columns.filter matchesCandidate

/-! ## Feature-subset search (`src/pred.py`, `trainandselectfeatures`) -/

/-- The running state of the search: `bestaccuracy`, `bestfeatures`,
and whether `bestmodel` is set (`bestmodel is not None`).  The stored
classification report's `accuracy` entry always equals `bestaccuracy`
(both come from the same predictions), so the report is not carried
separately. -/
structure SelState where
  bestaccuracy : ℚ
  bestfeatures : List String
  hasModel : Bool
deriving Repr, DecidableEq

/-- `itertools.combinations` on a list: all length-`r` subsequences, in the
order Python emits them (elements in input order, lexicographic by input
position). -/
def combinations : Nat → List String → List (List String)
  | 0, _ => [[]]
  | _ + 1, [] => []
  | r + 1, x :: xs =>
      (combinations r xs).map (fun c => x :: c) ++ combinations (r + 1) xs

/-- The sizes tried by the search: `range(2, min(6, len(candidates) + 1))`. -/
def subsetSizes (n : Nat) : List Nat := List.range' 2 (min 6 (n + 1) - 2)

/-- The full enumeration order of the nested loops: sizes in increasing
order, and for each size the combinations in Python's emission order. -/
def subsetEnumeration (cands : List String) : List (List String) :=
  (subsetSizes cands.length).flatMap (fun r => combinations r cands)

/-- The defensive presence check: every feature of the subset must be a
column of both splits. -/
def passesPresence (trainCols testCols : List String) (features : List String) : Bool :=
  features.all (fun f => decide (f ∈ trainCols)) &&
    features.all (fun f => decide (f ∈ testCols))

/-- One iteration of the inner loop body: skip the combination unless it
passes the presence check; otherwise train/evaluate (abstracted into `acc`)
and retain it only on a strict accuracy improvement (`acc > bestaccuracy`). -/
def selectStep (trainCols testCols : List String) (acc : List String → ℚ)
    (s : SelState) (combo : List String) : SelState :=
  if passesPresence trainCols testCols combo then
    if s.bestaccuracy < acc combo then ⟨acc combo, combo, true⟩ else s
  else s

/-- The whole search: fold the loop body over the enumeration, starting from
`bestaccuracy = 0.0`, `bestfeatures = []`, `bestmodel = None`. -/
def trainandselectfeatures (trainCols testCols : List String)
    (acc : List String → ℚ) (candidatefeatures : List String) : SelState :=
  (subsetEnumeration candidatefeatures).foldl
    (selectStep trainCols testCols acc) ⟨0, [], false⟩

/-! ## Generic dataframe helpers

A dataframe is an ordered association list from column name to the column's
cell list.  `getCol` is `df[name]` (pandas resolves the first matching
label), `setCol` is `df[name] = vals` (replace the column when the label
exists, append a new column otherwise). -/

abbrev DF (α : Type) := List (String × List α)

def getCol {α : Type} (df : DF α) (name : String) : Option (List α) :=
  (df.find? (fun p => p.1 = name)).map Prod.snd

def setCol {α : Type} (df : DF α) (name : String) (vals : List α) : DF α :=
  if df.any (fun p => p.1 = name) then
    df.map (fun p => if p.1 = name then (name, vals) else p)
  else df ++ [(name, vals)]

/-- `df[name] = f(df[name])` for a column known to be present: map over the
entries, rewriting every entry labelled `name`. -/
def updateCol {α : Type} (name : String) (f : List α → List α) (df : DF α) : DF α :=
  df.map (fun p => if p.1 = name then (p.1, f p.2) else p)

/-! ## Normalizer (`src/norm.py`, `normalizecurrentagainsttrain`)

Cell values of the splits fed to the scaler are plain numbers (rationals);
a fitted `MinMaxScaler` keeps, per column, `data_min_` and `scale_`.  With
the default feature range `(0, 1)`, sklearn computes
`scale_ = 1 / handle_zeros(data_max_ - data_min_)` (a zero range is replaced
by 1) and transforms `x` to `(x - data_min_) * scale_` — no clamping. -/

def listMin : List ℚ → ℚ
  | [] => 0
  | x :: xs => xs.foldl min x

def listMax : List ℚ → ℚ
  | [] => 0
  | x :: xs => xs.foldl max x

structure MinMaxScaler where
  dataMin : ℚ
  scale : ℚ
deriving Repr, DecidableEq

/-- sklearn's `_handle_zeros_in_scale`: a zero range scales by 1. -/
def handlezeros (d : ℚ) : ℚ := if d = 0 then 1 else d

/-- Fitting one column: parameters come from the given (training) column
only. -/
def fitColumn (xs : List ℚ) : MinMaxScaler :=
  ⟨listMin xs, 1 / handlezeros (listMax xs - listMin xs)⟩

/-- Applying a fitted scaler to one value (`X * scale_ + min_`, with
`min_ = -data_min_ * scale_`). -/
def transformValue (s : MinMaxScaler) (v : ℚ) : ℚ := (v - s.dataMin) * s.scale

/-- Outcome of one dataset's normalization run. `featureMismatch` models the
`ValueError` sklearn raises when `transform` sees a different column set
than `fit` did (the source checks only that the intersection is nonempty). -/
inductive NormResult
  | skipNoTrainCols
  | skipNoCurrentCols
  | featureMismatch
  | ok (df : DF ℚ)
deriving Repr, DecidableEq

def preserveStep (df : DF ℚ) (c : String) : DF ℚ :=
  match getCol df c with
  | some vals => setCol df (c ++ "Orig") vals
  | none => df

def transformStep (dftrain : DF ℚ) (df : DF ℚ) (c : String) : DF ℚ :=
  match getCol dftrain c, getCol df c with
  | some tcol, some vals =>
      setCol df c (vals.map (transformValue (fitColumn tcol)))
  | _, _ => df

/-- One dataset's normalization: fit on the training split's available
normalization columns, copy the first three intersecting columns to
`<col>Orig`, then transform the intersecting columns of the current split
with the train-fitted scaler. -/
def normalizecurrentagainsttrain (dftrain dfcurrent : DF ℚ) : NormResult :=
  let availablecolstrain := NORMALIZECOLS.filter (fun c => (getCol dftrain c).isSome)
  if availablecolstrain = [] then .skipNoTrainCols
  else
    let availablecolscurrent :=
      availablecolstrain.filter (fun c => (getCol dfcurrent c).isSome)
    if availablecolscurrent = [] then .skipNoCurrentCols
    else if availablecolscurrent ≠ availablecolstrain then .featureMismatch
    else
      let preserved := (availablecolscurrent.take 3).foldl preserveStep dfcurrent
      .ok (availablecolscurrent.foldl (transformStep dftrain) preserved)

/-! ## Cleaner (`src/clean.py`) -/

/-- A cell of a cleaned dataframe: `none` is the missing marker (`NaN`). -/
abbrev ColQ := List (Option ℚ)

/-- `drop_duplicates(subset=...)` compares rows by the whole row or by the
`subset` columns (given here as column positions); pandas treats two `NaN`
cells as equal for this comparison, as `none = none` does. -/
def rowKey (subset : Option (List Nat)) (r : List (Option ℚ)) : List (Option ℚ) :=
  match subset with
  | none => r
  | some is => is.map (fun i => r.getD i none)

/-- Duplicate removal keeping the first occurrence of each key. -/
def dedupAux (key : List (Option ℚ) → List (Option ℚ))
    (seen : List (List (Option ℚ))) : List (List (Option ℚ)) → List (List (Option ℚ))
  | [] => []
  | r :: rs =>
      if key r ∈ seen then dedupAux key seen rs
      else r :: dedupAux key (key r :: seen) rs

/-- `dropna(how="all")` drops a row iff every cell is missing. -/
def isallna (r : List (Option ℚ)) : Bool := r.all (fun c => c = none)

/-- `df.dropduplicates(subset=subset).dropna(how="all").resetindex(drop=True)`:
the list model's dense order stands for the reset 0-based index. -/
def dropduplicatesandtrim (subset : Option (List Nat))
    (df : List (List (Option ℚ))) : List (List (Option ℚ)) :=
  (dedupAux (rowKey subset) [] df).filter (fun r => !isallna r)

/-- The four fill strategies of `handlemissing`; any other strategy string
falls through every branch of the source and leaves the column unchanged. -/
inductive FillStrategy
  | median
  | mean
  | zero
  | ffill
deriving Repr, DecidableEq

def presentValues (col : ColQ) : List ℚ := col.filterMap id

/-- `Series.median()`: the median of the present values (`NaN` skipped);
`NaN` (here `none`) when no value is present.  Even counts average the two
middle values, as pandas does. -/
def medianOpt (col : ColQ) : Option ℚ :=
  let xs := (presentValues col).mergeSort (fun a b => decide (a ≤ b))
  if xs = [] then none
  else if xs.length % 2 = 1 then some (xs.getD (xs.length / 2) 0)
  else some ((xs.getD (xs.length / 2 - 1) 0 + xs.getD (xs.length / 2) 0) / 2)

/-- `Series.mean()` over the present values; `NaN` when none is present. -/
def meanOpt (col : ColQ) : Option ℚ :=
  if presentValues col = [] then none
  else some ((presentValues col).sum / (presentValues col).length)

/-- `Series.fillna(v)`: when `v` is itself `NaN` (`none`), missing cells stay
missing — exactly what `fillna(median)` does on an all-missing column. -/
def fillna (v : Option ℚ) (col : ColQ) : ColQ :=
  col.map (fun c => match c with | some x => some x | none => v)

/-- `Series.ffill()` with the running last observation (`none` before any). -/
def ffillAux : Option ℚ → ColQ → ColQ
  | _, [] => []
  | last, none :: rest => last :: ffillAux last rest
  | _, some x :: rest => some x :: ffillAux (some x) rest

def fillColumn : FillStrategy → ColQ → ColQ
  | .median, col => fillna (medianOpt col) col
  | .mean, col => fillna (meanOpt col) col
  | .zero, col => fillna (some 0) col
  | .ffill, col => ffillAux none col

/-- The spec-side characterization of where a missing marker may survive
`fillColumn` (the amended C4): never for `zero`; for `median`/`mean` only
when the whole column is missing (`fillna(NaN)` is a no-op); for `ffill`
only in a leading all-missing run. -/
def missingAllowed : FillStrategy → ColQ → Nat → Prop
  | .zero, _, _ => False
  | .median, col, _ => ∀ v ∈ col, v = none
  | .mean, col, _ => ∀ v ∈ col, v = none
  | .ffill, col, j => ∀ v ∈ col.take (j + 1), v = none

/-- The columns `handlemissing` touches: the explicit list when given,
otherwise every column (all columns of this model are numeric; the source
filters on `isnumericdtype`). -/
def targetCols (df : DF (Option ℚ)) (cols : Option (List String)) : List String :=
  match cols with
  | some cs => cs
  | none => df.map Prod.fst

/-- `handlemissing`: `for col in cols: df[col] = <filled df[col]>`.  (For a
target label absent from the dataframe the source raises `KeyError` on the
read; the model only ever rewrites existing columns.) -/
def handlemissing (df : DF (Option ℚ)) (strategy : FillStrategy)
    (cols : Option (List String)) : DF (Option ℚ) :=
  (targetCols df cols).foldl (fun d c => updateCol c (fillColumn strategy) d) df

/-- `validatecolumns`' report list: the required columns absent from the
dataframe, in required order (printed by the source). -/
def missingcolumns (dfCols requiredcols : List String) : List String :=
  requiredcols.filter (fun c => decide (c ∉ dfCols))

/-- `validatecolumns` returns `False` iff some required column is missing;
it never throws. -/
def validatecolumns (dfCols requiredcols : List String) : Bool :=
  missingcolumns dfCols requiredcols |>.isEmpty

/-! ## Feature engineer (`src/features.py`, `addlagfeatures`) -/

/-- `Series.shift(lag)` for `lag ≥ 0`: each row takes the value `lag`
positions earlier; the first `lag` rows get the missing marker; the length
is unchanged. -/
def shiftCol (lag : Nat) (col : ColQ) : ColQ :=
  (List.replicate lag none ++ col).take col.length

/-- The derived column's label, `f"{c}Lag{lag}"`. -/
def lagName (c : String) (lag : Nat) : String := c ++ "Lag" ++ toString lag

/-- One iteration of the `addlagfeatures` loop body:
`if c in df.columns: df[f"{c}Lag{lag}"] = df[c].shift(lag)`. -/
def lagStep (lag : Nat) (df : DF (Option ℚ)) (c : String) : DF (Option ℚ) :=
  match getCol df c with
  | some col => setCol df (lagName c lag) (shiftCol lag col)
  | none => df

/-- `addlagfeatures`: for each requested source column present in the
dataframe, assign `df[f"{c}Lag{lag}"] = df[c].shift(lag)`; requested columns
absent from the dataframe are skipped. -/
def addlagfeatures : DF (Option ℚ) → List String → Nat → DF (Option ℚ)
  | df, [], _ => df
  | df, c :: rest, lag => addlagfeatures (lagStep lag df c) rest lag

/-! ## The prediction run (`src/pred.py`, `runpredictions`)

One dataset of the run: its basename, the training split's columns, the
test split's columns (`none` when the test file is missing), the current
split's columns (`none` when there is no current file), and the two
abstract accuracy oracles (test-split accuracy and current-split accuracy
of the model trained on a given feature subset — sklearn fitting and
scoring are deterministic for fixed split data, so both are functions of
the feature list). -/
structure Dataset where
  basename : String
  train : List String
  test : Option (List String)
  current : Option (List String)
  acc : List String → ℚ
  curracc : List String → ℚ

/-- One row of the final summary table. -/
structure SummaryEntry where
  dataset : String
  accTest : ℚ
  accCurrent : Option ℚ
  bestFeatures : List String
deriving Repr, DecidableEq

/-- `⌊x⌋` on ℚ, computably (`Int.fdiv` is floor division). -/
def floorQ (x : ℚ) : ℤ := Int.fdiv x.num x.den

/-- Python's `round` at the integer: nearest, ties to even. -/
def roundHalfEven (x : ℚ) : ℤ :=
  let f := floorQ x
  let frac := x - (f : ℚ)
  if 2 * frac < 1 then f
  else if 1 < 2 * frac then f + 1
  else if f % 2 = 0 then f else f + 1

/-- `round(x, 4)` on the exact rational value (Python rounds the nearest
binary double; the difference can only surface at exact half-ties of the
fourth decimal, which no claim here depends on). -/
def pythonRound4 (x : ℚ) : ℚ := (roundHalfEven (x * 10000) : ℚ) / 10000

/-- How `runpredictions` leaves one dataset: skipped (with its logged
message), or a summary entry.  The `wroteCurrentPred` flag records whether
the model was applied to the current split (a `CurrentPred.csv` was
written). -/
inductive DatasetOutcome
  | missingTest
  | missingTarget
  | noCandidates
  | noValidCombination
  | summary (e : SummaryEntry) (wroteCurrentPred : Bool)
deriving Repr, DecidableEq

/-- The per-dataset body of `runpredictions`' loop, in source order:
missing test file → skip; missing target in either split → skip; no
candidate features → skip; search found no model → skip; otherwise write
test predictions, apply the model to the current split exactly when every
winning feature is a current column, and append one summary entry whose
current accuracy is present exactly when the current split was predicted
and also has the target column. -/
def processdataset (d : Dataset) : DatasetOutcome :=
  match d.test with
  | none => .missingTest
  | some testCols =>
    if TARGETCOL ∈ d.train ∧ TARGETCOL ∈ testCols then
      let candidatefeatures := discovercandidatefeatures d.train
      if candidatefeatures = [] then .noCandidates
      else
        let sel := trainandselectfeatures d.train testCols d.acc candidatefeatures
        if sel.hasModel then
          match d.current with
          | some currentCols =>
            if ∀ f ∈ sel.bestfeatures, f ∈ currentCols then
              if TARGETCOL ∈ currentCols then
                .summary ⟨d.basename, pythonRound4 sel.bestaccuracy,
                  some (pythonRound4 (d.curracc sel.bestfeatures)),
                  sel.bestfeatures⟩ true
              else
                .summary ⟨d.basename, pythonRound4 sel.bestaccuracy, none,
                  sel.bestfeatures⟩ true
            else
              .summary ⟨d.basename, pythonRound4 sel.bestaccuracy, none,
                sel.bestfeatures⟩ false
          | none =>
              .summary ⟨d.basename, pythonRound4 sel.bestaccuracy, none,
                sel.bestfeatures⟩ false
        else .noValidCombination
    else .missingTarget

/-- The skip messages the loop prints for one dataset (the progress and
file-save prints are I/O chatter and not modelled). -/
def datasetLogs (d : Dataset) : List String :=
  match processdataset d with
  | .missingTest => ["Missing test file for " ++ d.basename ++ ". Skipping..."]
  | .missingTarget =>
      ["Target column '" ++ TARGETCOL ++ "' missing for " ++ d.basename ++
        ". Skipping..."]
  | .noCandidates => ["No candidate features for " ++ d.basename ++ ". Skipping..."]
  | .noValidCombination =>
      ["No valid feature combinations found for " ++ d.basename ++ "."]
  | .summary _ _ => []

def summaryOf (d : Dataset) : Option SummaryEntry :=
  match processdataset d with
  | .summary e _ => some e
  | _ => none

/-- The whole run: every dataset is processed in order; a skip never aborts
the loop (the Lean function is total — no exception escapes a dataset).
Returns the skip log and the accumulated summary rows. -/
def runpredictions (datasets : List Dataset) : List String × List SummaryEntry :=
  (datasets.flatMap datasetLogs, datasets.filterMap summaryOf)

/-! # Theorems

## The feature-subset search -/

theorem mem_combinations (l : List String) :
    ∀ (r : Nat) (s : List String),
      s ∈ combinations r l ↔ List.Sublist s l ∧ s.length = r := by
  induction l with
  | nil =>
    intro r s
    cases r with
    | zero =>
      simp only [combinations, List.mem_singleton]
      constructor
      · rintro rfl; exact ⟨List.Sublist.refl _, rfl⟩
      · rintro ⟨_, hlen⟩
        exact List.length_eq_zero.mp hlen
    | succ r =>
      simp only [combinations, List.not_mem_nil, false_iff, not_and]
      intro hs
      have := List.sublist_nil.mp hs
      subst this
      simp
  | cons x xs ih =>
    intro r s
    cases r with
    | zero =>
      simp only [combinations, List.mem_singleton]
      constructor
      · rintro rfl; exact ⟨List.nil_sublist _, rfl⟩
      · rintro ⟨_, hlen⟩
        exact List.length_eq_zero.mp hlen
    | succ r =>
      simp only [combinations, List.mem_append, List.mem_map]
      constructor
      · rintro (⟨c, hc, rfl⟩ | h)
        · rcases (ih r c).mp hc with ⟨hsub, hlen⟩
          exact ⟨List.Sublist.cons₂ x hsub, by simp [hlen]⟩
        · rcases (ih (r + 1) s).mp h with ⟨hsub, hlen⟩
          exact ⟨List.Sublist.cons x hsub, hlen⟩
      · rintro ⟨hsub, hlen⟩
        rcases List.sublist_cons_iff.mp hsub with h | ⟨t, rfl, ht⟩
        · exact Or.inr ((ih (r + 1) s).mpr ⟨h, hlen⟩)
        · left
          refine ⟨t, (ih r t).mpr ⟨ht, ?_⟩, rfl⟩
          simpa using hlen

/-- The enumeration holds a subset iff it is a combination (an ordered
subsequence) of the candidate list whose size lies in `[2, min(5, n)]`
(the bound `≤ n` being automatic for a subsequence). -/
theorem mem_subsetEnumeration (cands : List String) (s : List String) :
    s ∈ subsetEnumeration cands ↔
      List.Sublist s cands ∧ 2 ≤ s.length ∧ s.length ≤ 5 := by
  simp only [subsetEnumeration, List.mem_flatMap, subsetSizes, List.mem_range'_1,
    mem_combinations]
  constructor
  · rintro ⟨r, ⟨h2, hlt⟩, hsub, rfl⟩
    refine ⟨hsub, h2, ?_⟩
    omega
  · rintro ⟨hsub, h2, h5⟩
    have hn := hsub.length_le
    exact ⟨s.length, ⟨h2, by omega⟩, hsub, rfl⟩

/-- When no combination beats the running best, the fold leaves the state
alone — in particular the initial state with `bestaccuracy = 0` survives a
search in which every subset scores `0`. -/
theorem foldl_select_no_improve (trainCols testCols : List String)
    (acc : List String → ℚ) (L : List (List String)) (b : ℚ) (f : List String)
    (m : Bool) (h : ∀ t ∈ L, acc t ≤ b) :
    L.foldl (selectStep trainCols testCols acc) ⟨b, f, m⟩ = ⟨b, f, m⟩ := by
  induction L with
  | nil => rfl
  | cons c L ih =>
    have hc : acc c ≤ b := h c (by simp)
    have hstep : selectStep trainCols testCols acc ⟨b, f, m⟩ c = ⟨b, f, m⟩ := by
      unfold selectStep
      split
      · rw [if_neg (not_lt.mpr hc)]
      · rfl
    simp only [List.foldl_cons, hstep]
    exact ih (fun t ht => h t (by simp [ht]))

/-- Where the strict-improvement fold lands when every element passes the
presence check: either nothing ever beat the start state, or the result is
the accuracy/features of an element `u` that strictly beats everything
enumerated before it (and the start), with nothing after it beating it. -/
theorem foldl_select_char (trainCols testCols : List String)
    (acc : List String → ℚ) (L : List (List String)) :
    ∀ (b : ℚ) (f : List String) (m : Bool),
      (∀ t ∈ L, passesPresence trainCols testCols t = true) →
      ((∀ t ∈ L, acc t ≤ b) ∧
        L.foldl (selectStep trainCols testCols acc) ⟨b, f, m⟩ = ⟨b, f, m⟩) ∨
      (∃ l1 u l2, L = l1 ++ u :: l2 ∧
        L.foldl (selectStep trainCols testCols acc) ⟨b, f, m⟩ = ⟨acc u, u, true⟩ ∧
        b < acc u ∧ (∀ v ∈ l1, acc v < acc u) ∧ (∀ v ∈ l2, acc v ≤ acc u)) := by
  induction L with
  | nil =>
    intro b f m _
    left
    exact ⟨by simp, rfl⟩
  | cons c L ih =>
    intro b f m hp
    have hpc : passesPresence trainCols testCols c = true := hp c (by simp)
    have hpL : ∀ t ∈ L, passesPresence trainCols testCols t = true :=
      fun t ht => hp t (by simp [ht])
    by_cases hcb : b < acc c
    · have hstep : selectStep trainCols testCols acc ⟨b, f, m⟩ c
          = ⟨acc c, c, true⟩ := by
        unfold selectStep
        rw [if_pos hpc, if_pos hcb]
      simp only [List.foldl_cons, hstep]
      rcases ih (acc c) c true hpL with ⟨hall, heq⟩ | ⟨l1, u, l2, hL, heq, hlt, h1, h2⟩
      · right
        exact ⟨[], c, L, rfl, heq, hcb, by simp, hall⟩
      · right
        refine ⟨c :: l1, u, l2, by simp [hL], heq, lt_trans hcb hlt, ?_, h2⟩
        intro v hv
        rcases List.mem_cons.mp hv with rfl | hv
        · exact hlt
        · exact h1 v hv
    · have hstep : selectStep trainCols testCols acc ⟨b, f, m⟩ c = ⟨b, f, m⟩ := by
        unfold selectStep
        rw [if_pos hpc, if_neg hcb]
      simp only [List.foldl_cons, hstep]
      rcases ih b f m hpL with ⟨hall, heq⟩ | ⟨l1, u, l2, hL, heq, hlt, h1, h2⟩
      · left
        refine ⟨?_, heq⟩
        intro t ht
        rcases List.mem_cons.mp ht with rfl | ht
        · exact not_lt.mp hcb
        · exact hall t ht
      · right
        refine ⟨c :: l1, u, l2, by simp [hL], heq, hlt, ?_, h2⟩
        intro v hv
        rcases List.mem_cons.mp hv with rfl | hv
        · exact lt_of_le_of_lt (not_lt.mp hcb) hlt
        · exact h1 v hv

/-- C1 (amended): when every candidate is a column of both splits and some
enumerated subset scores strictly positive accuracy, the search enumerates
exactly the size-2..min(5,n) combinations of the candidate list (sizes
increasing, candidate-list order within a size — the enumeration list is
definitionally that nested loop), and returns the subset with the strictly
highest accuracy, ties resolved in favour of the earlier-enumerated subset:
the winner `u` strictly beats everything enumerated before it and is not
beaten by anything after it. -/
theorem C1_selector (trainCols testCols : List String)
    (acc : List String → ℚ) (cands : List String)
    (hin : ∀ f ∈ cands, f ∈ trainCols ∧ f ∈ testCols)
    (hpos : ∃ s ∈ subsetEnumeration cands, 0 < acc s) :
    (∀ s, s ∈ subsetEnumeration cands ↔
        List.Sublist s cands ∧ 2 ≤ s.length ∧ s.length ≤ 5) ∧
    ∃ l1 u l2, subsetEnumeration cands = l1 ++ u :: l2 ∧
      trainandselectfeatures trainCols testCols acc cands = ⟨acc u, u, true⟩ ∧
      (∀ v ∈ l1, acc v < acc u) ∧ (∀ v ∈ l2, acc v ≤ acc u) := by
  refine ⟨fun s => mem_subsetEnumeration cands s, ?_⟩
  have hp : ∀ t ∈ subsetEnumeration cands,
      passesPresence trainCols testCols t = true := by
    intro t ht
    have hsub := ((mem_subsetEnumeration cands t).mp ht).1
    have hmem : ∀ f ∈ t, f ∈ cands := fun f hf => hsub.mem hf
    simp only [passesPresence, Bool.and_eq_true, List.all_eq_true, decide_eq_true_eq]
    exact ⟨fun f hf => (hin f (hmem f hf)).1, fun f hf => (hin f (hmem f hf)).2⟩
  rcases foldl_select_char trainCols testCols acc (subsetEnumeration cands) 0 []
      false hp with ⟨hall, _⟩ | ⟨l1, u, l2, hL, heq, _, h1, h2⟩
  · rcases hpos with ⟨s, hs, hslt⟩
    exact absurd (hall s hs) (not_le.mpr hslt)
  · exact ⟨l1, u, l2, hL, heq, h1, h2⟩

/-- Witness for C1: three candidates, all present in both splits; the subset
`["a", "c"]` scores 1 while everything else scores 0, and the search
returns it. -/
theorem C1_selector_witness :
    (∀ s, s ∈ subsetEnumeration ["a", "b", "c"] ↔
        List.Sublist s ["a", "b", "c"] ∧ 2 ≤ s.length ∧ s.length ≤ 5) ∧
    ∃ l1 u l2, subsetEnumeration ["a", "b", "c"] = l1 ++ u :: l2 ∧
      trainandselectfeatures ["a", "b", "c", "Target"] ["a", "b", "c", "Target"]
          (fun s => if s = ["a", "c"] then 1 else 0) ["a", "b", "c"] =
        ⟨(fun s => if s = ["a", "c"] then 1 else 0) u, u, true⟩ ∧
      (∀ v ∈ l1, (fun s => if s = ["a", "c"] then (1 : ℚ) else 0) v <
          (fun s => if s = ["a", "c"] then 1 else 0) u) ∧
      (∀ v ∈ l2, (fun s => if s = ["a", "c"] then (1 : ℚ) else 0) v ≤
          (fun s => if s = ["a", "c"] then 1 else 0) u) :=
  C1_selector ["a", "b", "c", "Target"] ["a", "b", "c", "Target"]
    (fun s => if s = ["a", "c"] then 1 else 0) ["a", "b", "c"]
    (by decide) ⟨["a", "c"], by decide, by decide⟩

/-- C1 as frozen is false: with two candidates the enumeration is the single
subset `["a", "b"]`, with every accuracy equal to `0` the tie-to-earlier
rule would select that first enumerated subset, but the search (whose
running best starts at `0.0` and only moves on a strict improvement)
returns the empty feature list, which is no enumerated subset at all. -/
theorem C1_counterexample :
    subsetEnumeration ["a", "b"] = [["a", "b"]] ∧
    (trainandselectfeatures ["a", "b"] ["a", "b"] (fun _ => 0)
        ["a", "b"]).bestfeatures = [] ∧
    [] ∉ subsetEnumeration ["a", "b"] :=
  ⟨by decide, by decide, by decide⟩

/-- C7: when every enumerated subset scores accuracy exactly 0 on the
evaluation split, the search ends in its initial state — no model
(`bestmodel is None`), empty best feature list, best accuracy 0 — even
though subsets passing the presence check were evaluated. -/
theorem C7_all_zero (trainCols testCols : List String)
    (acc : List String → ℚ) (cands : List String)
    (_hval : ∃ s ∈ subsetEnumeration cands,
      passesPresence trainCols testCols s = true)
    (hz : ∀ s ∈ subsetEnumeration cands, acc s = 0) :
    trainandselectfeatures trainCols testCols acc cands = ⟨0, [], false⟩ :=
  foldl_select_no_improve trainCols testCols acc (subsetEnumeration cands) 0 []
    false (fun t ht => le_of_eq (hz t ht))

/-- Witness for C7: two candidates present in both splits, the one valid
subset scores 0, and the search returns no model and no features. -/
theorem C7_all_zero_witness :
    trainandselectfeatures ["a", "b"] ["a", "b"] (fun _ => 0) ["a", "b"]
      = ⟨0, [], false⟩ :=
  C7_all_zero ["a", "b"] ["a", "b"] (fun _ => 0) ["a", "b"]
    ⟨["a", "b"], by decide, by decide⟩ (fun _ _ => rfl)

/-! ## Feature discovery -/

theorem matchesCandidate_iff (c : String) :
    matchesCandidate c = true ↔
      c ∉ EXCLUDEFEATURES ∧ (endswith c LAGSUFFIX = true ∨
        ∃ p ∈ CANDIDATEFEATUREPREFIXES, startswith c p = true) := by
  unfold matchesCandidate
  by_cases hex : c ∈ EXCLUDEFEATURES
  · simp [hex]
  · rw [if_neg hex]
    by_cases hend : endswith c LAGSUFFIX
    · simp [hend, hex]
    · simp [hend, hex, List.any_eq_true]

/-- C2: discovery returns exactly the input columns that are outside the
exclusion list and either end with the lag suffix or start with a candidate
prefix; the output is a subsequence of the input (so input order is
preserved), excluded columns never appear, and — column names of a dataset
being distinct — neither do duplicates. -/
theorem C2_discovery (columns : List String) (hnd : columns.Nodup) :
    List.Sublist (discovercandidatefeatures columns) columns ∧
    (∀ c, c ∈ discovercandidatefeatures columns ↔
        c ∈ columns ∧ c ∉ EXCLUDEFEATURES ∧
          (endswith c LAGSUFFIX = true ∨
            ∃ p ∈ CANDIDATEFEATUREPREFIXES, startswith c p = true)) ∧
    (discovercandidatefeatures columns).Nodup ∧
    (∀ c ∈ discovercandidatefeatures columns, c ∉ EXCLUDEFEATURES) := by
  refine ⟨List.filter_sublist columns, ?_, hnd.filter _, ?_⟩
  · intro c
    rw [discovercandidatefeatures, List.mem_filter, matchesCandidate_iff]
  · intro c hc
    have := (List.mem_filter.mp hc).2
    exact ((matchesCandidate_iff c).mp this).1

/-- Witness for C2 at a concrete column list containing excluded columns,
lag-suffixed columns, prefix matches and an unmatched column. -/
theorem C2_discovery_witness :
    List.Sublist (discovercandidatefeatures
        ["Date", "FeatureA", "FeatureALag1", "Close", "Other", "SignalX", "Target"])
      ["Date", "FeatureA", "FeatureALag1", "Close", "Other", "SignalX", "Target"] ∧
    (∀ c, c ∈ discovercandidatefeatures
        ["Date", "FeatureA", "FeatureALag1", "Close", "Other", "SignalX", "Target"] ↔
        c ∈ ["Date", "FeatureA", "FeatureALag1", "Close", "Other", "SignalX",
          "Target"] ∧ c ∉ EXCLUDEFEATURES ∧
          (endswith c LAGSUFFIX = true ∨
            ∃ p ∈ CANDIDATEFEATUREPREFIXES, startswith c p = true)) ∧
    (discovercandidatefeatures
        ["Date", "FeatureA", "FeatureALag1", "Close", "Other", "SignalX",
          "Target"]).Nodup ∧
    (∀ c ∈ discovercandidatefeatures
        ["Date", "FeatureA", "FeatureALag1", "Close", "Other", "SignalX", "Target"],
      c ∉ EXCLUDEFEATURES) :=
  C2_discovery _ (by decide)

/-! ## Normalizer lemmas -/

theorem find?_map_set {α : Type} (df : DF α) (name : String) (vals : List α)
    (h : df.any (fun p => p.1 = name) = true) :
    List.find? (fun p => p.1 = name)
      (df.map (fun p => if p.1 = name then (name, vals) else p)) = some (name, vals) := by
  induction df with
  | nil => simp at h
  | cons p df ih =>
    by_cases hp : p.1 = name
    · simp only [List.map_cons, if_pos hp]
      rw [List.find?_cons_of_pos]
      simp
    · have h2 : df.any (fun q => q.1 = name) = true := by
        simpa [hp] using h
      simp only [List.map_cons, if_neg hp]
      rw [List.find?_cons_of_neg]
      · exact ih h2
      · simp [hp]

theorem find?_map_set_ne {α : Type} (df : DF α) (name c : String) (vals : List α)
    (hne : name ≠ c) :
    List.find? (fun p => p.1 = c)
      (df.map (fun p => if p.1 = name then (name, vals) else p)) =
    List.find? (fun p => p.1 = c) df := by
  induction df with
  | nil => rfl
  | cons p df ih =>
    by_cases hp : p.1 = name
    · simp only [List.map_cons, if_pos hp]
      rw [List.find?_cons_of_neg, List.find?_cons_of_neg]
      · exact ih
      · simp [hp, hne]
      · simp [hne]
    · simp only [List.map_cons, if_neg hp]
      by_cases hc : p.1 = c
      · rw [List.find?_cons_of_pos, List.find?_cons_of_pos] <;> simp [hc]
      · rw [List.find?_cons_of_neg, List.find?_cons_of_neg]
        · exact ih
        · simp [hc]
        · simp [hc]

theorem getCol_setCol_self {α : Type} (df : DF α) (name : String) (vals : List α) :
    getCol (setCol df name vals) name = some vals := by
  unfold setCol getCol
  by_cases h : df.any (fun p => p.1 = name)
  · rw [if_pos h, find?_map_set df name vals h]
    rfl
  · rw [if_neg h]
    have hnone : df.find? (fun p => p.1 = name) = none := by
      rw [List.find?_eq_none]
      intro p hp hcon
      simp only [List.any_eq_true] at h
      exact h ⟨p, hp, hcon⟩
    rw [List.find?_append, hnone]
    simp

theorem getCol_setCol_ne {α : Type} (df : DF α) (name c : String) (vals : List α)
    (hne : name ≠ c) : getCol (setCol df name vals) c = getCol df c := by
  unfold setCol getCol
  by_cases h : df.any (fun p => p.1 = name)
  · rw [if_pos h, find?_map_set_ne df name c vals hne]
  · rw [if_neg h, List.find?_append]
    have : List.find? (fun p => p.1 = c) [(name, vals)] = none := by
      simp [List.find?, hne]
    rw [this]
    simp

theorem getCol_preserveStep_ne (df : DF ℚ) (c' c : String) (hne : c' ++ "Orig" ≠ c) :
    getCol (preserveStep df c') c = getCol df c := by
  unfold preserveStep
  cases h : getCol df c' with
  | none => rfl
  | some vals => exact getCol_setCol_ne df (c' ++ "Orig") c vals hne

theorem getCol_preserve_foldl (cs : List String) :
    ∀ (df : DF ℚ) (c : String), (∀ d ∈ cs, d ++ "Orig" ≠ c) →
      getCol (cs.foldl preserveStep df) c = getCol df c := by
  induction cs with
  | nil => intro df c _; rfl
  | cons c' cs ih =>
    intro df c h
    simp only [List.foldl_cons]
    rw [ih (preserveStep df c') c (fun d hd => h d (by simp [hd]))]
    exact getCol_preserveStep_ne df c' c (h c' (by simp))

theorem getCol_transformStep_ne (dftrain df : DF ℚ) (c' c : String) (hne : c' ≠ c) :
    getCol (transformStep dftrain df c') c = getCol df c := by
  unfold transformStep
  cases h1 : getCol dftrain c' with
  | none => rfl
  | some tcol =>
    cases h2 : getCol df c' with
    | none => rfl
    | some vals => exact getCol_setCol_ne df c' c _ hne

theorem getCol_transform_foldl_not_mem (dftrain : DF ℚ) (cs : List String) :
    ∀ (df : DF ℚ) (c : String), c ∉ cs →
      getCol (cs.foldl (transformStep dftrain) df) c = getCol df c := by
  induction cs with
  | nil => intro df c _; rfl
  | cons c' cs ih =>
    intro df c h
    simp only [List.foldl_cons]
    rw [ih (transformStep dftrain df c') c (fun hc => h (by simp [hc]))]
    exact getCol_transformStep_ne dftrain df c' c (fun he => h (by simp [he]))

theorem getCol_transform_foldl (dftrain : DF ℚ) (cs : List String)
    (hnd : cs.Nodup) (c : String) (hc : c ∈ cs) (tcol : List ℚ)
    (htr : getCol dftrain c = some tcol) :
    ∀ (df : DF ℚ) (ccol : List ℚ), getCol df c = some ccol →
      getCol (cs.foldl (transformStep dftrain) df) c =
        some (ccol.map (transformValue (fitColumn tcol))) := by
  induction cs with
  | nil => cases hc
  | cons c' cs ih =>
    intro df ccol hdf
    simp only [List.foldl_cons]
    by_cases hcc : c = c'
    · subst hcc
      have hstep : getCol (transformStep dftrain df c) c =
          some (ccol.map (transformValue (fitColumn tcol))) := by
        unfold transformStep
        rw [htr, hdf]
        exact getCol_setCol_self df c _
      rw [getCol_transform_foldl_not_mem dftrain cs _ c (List.Nodup.not_mem hnd)]
      exact hstep
    · have hpres : getCol (transformStep dftrain df c') c = some ccol := by
        rw [getCol_transformStep_ne dftrain df c' c (fun he => hcc he.symm)]
        exact hdf
      have hcs : c ∈ cs := by
        rcases List.mem_cons.mp hc with h | h
        · exact absurd h hcc
        · exact h
      exact ih hnd.of_cons hcs _ ccol hpres

theorem transform_in_unit_interval (tcol : List ℚ) (v : ℚ)
    (h1 : listMin tcol ≤ v) (h2 : v ≤ listMax tcol) :
    0 ≤ transformValue (fitColumn tcol) v ∧ transformValue (fitColumn tcol) v ≤ 1 := by
  unfold transformValue fitColumn handlezeros
  simp only
  by_cases hz : listMax tcol - listMin tcol = 0
  · have hvm : v = listMin tcol := le_antisymm (by linarith [sub_eq_zero.mp hz]) h1
    rw [if_pos hz, hvm]
    norm_num
  · rw [if_neg hz]
    have hlt : listMin tcol < listMax tcol := by
      rcases lt_or_eq_of_le (le_trans h1 h2) with h | h
      · exact h
      · exact absurd (by rw [h]; ring) hz
    have hpos : 0 < listMax tcol - listMin tcol := by linarith
    constructor
    · have := mul_nonneg (sub_nonneg.mpr h1) (le_of_lt (one_div_pos.mpr hpos))
      simpa using this
    · rw [mul_one_div, div_le_one hpos]
      linarith

theorem transform_unclamped (tcol : List ℚ) (v : ℚ)
    (h1 : listMin tcol < listMax tcol) (h2 : listMax tcol < v) :
    1 < transformValue (fitColumn tcol) v := by
  unfold transformValue fitColumn handlezeros
  simp only
  have hpos : 0 < listMax tcol - listMin tcol := by linarith
  rw [if_neg (ne_of_gt hpos), mul_one_div, lt_div_iff₀ hpos]
  linarith

theorem C3_normalizer (dftrain dfcurrent : DF ℚ) (c : String) (tcol ccol : List ℚ)
    (hc : c ∈ NORMALIZECOLS)
    (htr : getCol dftrain c = some tcol)
    (hcur : getCol dfcurrent c = some ccol)
    (hall : ∀ d ∈ NORMALIZECOLS, (getCol dftrain d).isSome = true →
      (getCol dfcurrent d).isSome = true) :
    ∃ res, normalizecurrentagainsttrain dftrain dfcurrent = NormResult.ok res ∧
      getCol res c = some (ccol.map (transformValue (fitColumn tcol))) ∧
      (∀ v, listMin tcol ≤ v → v ≤ listMax tcol →
        0 ≤ transformValue (fitColumn tcol) v ∧
          transformValue (fitColumn tcol) v ≤ 1) ∧
      (∀ v, listMin tcol < listMax tcol → listMax tcol < v →
        1 < transformValue (fitColumn tcol) v) := by
  have hcA : c ∈ NORMALIZECOLS.filter (fun d => (getCol dftrain d).isSome) :=
    List.mem_filter.mpr ⟨hc, by rw [htr]; rfl⟩
  have hAne : NORMALIZECOLS.filter (fun d => (getCol dftrain d).isSome) ≠ [] :=
    List.ne_nil_of_mem hcA
  have hfix : (NORMALIZECOLS.filter (fun d => (getCol dftrain d).isSome)).filter
      (fun d => (getCol dfcurrent d).isSome) =
      NORMALIZECOLS.filter (fun d => (getCol dftrain d).isSome) := by
    rw [List.filter_eq_self]
    intro x hx
    exact hall x (List.mem_filter.mp hx).1 (List.mem_filter.mp hx).2
  have hnorm : normalizecurrentagainsttrain dftrain dfcurrent =
      NormResult.ok
        ((NORMALIZECOLS.filter (fun d => (getCol dftrain d).isSome)).foldl
          (transformStep dftrain)
          (((NORMALIZECOLS.filter (fun d => (getCol dftrain d).isSome)).take 3).foldl
            preserveStep dfcurrent)) := by
    unfold normalizecurrentagainsttrain
    simp only [hfix]
    rw [if_neg hAne, if_neg hAne, if_neg (fun h => h rfl)]
  refine ⟨_, hnorm, ?_, fun v h1 h2 => transform_in_unit_interval tcol v h1 h2,
    fun v h1 h2 => transform_unclamped tcol v h1 h2⟩
  have hOO : ∀ x ∈ NORMALIZECOLS, ∀ y ∈ NORMALIZECOLS, ¬ x ++ "Orig" = y := by decide
  have hpres : getCol
      (((NORMALIZECOLS.filter (fun d => (getCol dftrain d).isSome)).take 3).foldl
        preserveStep dfcurrent) c = some ccol := by
    rw [getCol_preserve_foldl _ dfcurrent c, hcur]
    intro d hd
    have hdA := (List.take_sublist 3 _).subset hd
    exact hOO d (List.mem_filter.mp hdA).1 c hc
  exact getCol_transform_foldl dftrain _
    (((by decide : NORMALIZECOLS.Nodup)).filter _) c hcA tcol htr _ ccol hpres

theorem C3_normalizer_witness :
    ∃ res, normalizecurrentagainsttrain [("FeatureA", [1, 3])] [("FeatureA", [2])]
        = NormResult.ok res ∧
      getCol res "FeatureA" =
        some ([2].map (transformValue (fitColumn [1, 3]))) ∧
      (∀ v, listMin [1, 3] ≤ v → v ≤ listMax [1, 3] →
        0 ≤ transformValue (fitColumn [1, 3]) v ∧
          transformValue (fitColumn [1, 3]) v ≤ 1) ∧
      (∀ v, listMin [1, 3] < listMax [1, 3] → listMax [1, 3] < v →
        1 < transformValue (fitColumn [1, 3]) v) :=
  C3_normalizer [("FeatureA", [1, 3])] [("FeatureA", [2])] "FeatureA" [1, 3] [2]
    (by decide) (by decide) (by decide) (by decide)


/-! ## Cleaner: idempotence of dropduplicatesandtrim -/

theorem dedupAux_spec (key : List (Option ℚ) → List (Option ℚ)) :
    ∀ (l : List (List (Option ℚ))) (seen : List (List (Option ℚ))),
      List.Pairwise (fun a b => key a ≠ key b) (dedupAux key seen l) ∧
      ∀ r ∈ dedupAux key seen l, key r ∉ seen := by
  intro l
  induction l with
  | nil => intro seen; exact ⟨List.Pairwise.nil, by simp [dedupAux]⟩
  | cons r rs ih =>
    intro seen
    unfold dedupAux
    by_cases h : key r ∈ seen
    · rw [if_pos h]
      exact ih seen
    · rw [if_neg h]
      obtain ⟨hpair, hseen⟩ := ih (key r :: seen)
      refine ⟨List.Pairwise.cons ?_ hpair, ?_⟩
      · intro r' hr'
        have := hseen r' hr'
        intro hkey
        exact this (by rw [← hkey]; exact List.mem_cons_self _ _)
      · intro r'' hr''
        rcases List.mem_cons.mp hr'' with rfl | hr''
        · exact h
        · exact fun hcon => hseen r'' hr'' (List.mem_cons_of_mem _ hcon)

theorem dedupAux_eq_self (key : List (Option ℚ) → List (Option ℚ)) :
    ∀ (l : List (List (Option ℚ))) (seen : List (List (Option ℚ))),
      List.Pairwise (fun a b => key a ≠ key b) l →
      (∀ r ∈ l, key r ∉ seen) → dedupAux key seen l = l := by
  intro l
  induction l with
  | nil => intro seen _ _; rfl
  | cons r rs ih =>
    intro seen hpair hseen
    unfold dedupAux
    rw [if_neg (hseen r (List.mem_cons_self _ _))]
    congr 1
    refine ih (key r :: seen) (List.Pairwise.of_cons hpair) ?_
    intro r' hr'
    intro hcon
    rcases List.mem_cons.mp hcon with heq | hmem
    · exact (List.pairwise_cons.mp hpair).1 r' hr' heq.symm
    · exact hseen r' (List.mem_cons_of_mem _ hr') hmem

/-- C8: the cleaning step — duplicate-row removal (first occurrence kept),
fully-empty-row removal, dense reindexing (implicit in the list model) — is
idempotent. -/
theorem C8_clean_idempotent (subset : Option (List Nat))
    (df : List (List (Option ℚ))) :
    dropduplicatesandtrim subset (dropduplicatesandtrim subset df) =
      dropduplicatesandtrim subset df := by
  unfold dropduplicatesandtrim
  have hpair := (dedupAux_spec (rowKey subset) df []).1
  have hpairf : List.Pairwise (fun a b => rowKey subset a ≠ rowKey subset b)
      ((dedupAux (rowKey subset) [] df).filter (fun r => !isallna r)) :=
    List.Pairwise.sublist (List.filter_sublist _) hpair
  rw [dedupAux_eq_self _ _ [] hpairf (by simp)]
  rw [List.filter_filter]
  simp

/-! ## Cleaner: schema validation -/

/-- C9: validation is a total function returning a boolean (never a throw):
`true` exactly when every required column is present, and the reported
missing list holds exactly the absent required columns, by name. -/
theorem C9_validatecolumns (dfCols requiredcols : List String) :
    (validatecolumns dfCols requiredcols = true ↔ ∀ c ∈ requiredcols, c ∈ dfCols) ∧
    (∀ c, c ∈ missingcolumns dfCols requiredcols ↔ c ∈ requiredcols ∧ c ∉ dfCols) := by
  constructor
  · rw [validatecolumns, List.isEmpty_iff]
    constructor
    · intro h c hc
      by_contra hnc
      have hmem : c ∈ missingcolumns dfCols requiredcols :=
        List.mem_filter.mpr ⟨hc, by simpa using hnc⟩
      rw [h] at hmem
      exact absurd hmem (List.not_mem_nil c)
    · intro h
      rw [missingcolumns, List.filter_eq_nil_iff]
      intro c hc
      simpa using h c hc
  · intro c
    rw [missingcolumns, List.mem_filter]
    simp

/-! ## Feature engineer: lag features -/

theorem shiftCol_length (lag : Nat) (col : ColQ) :
    (shiftCol lag col).length = col.length := by
  unfold shiftCol
  rw [List.length_take, List.length_append, List.length_replicate]
  omega

theorem shiftCol_getElem (lag : Nat) (col : ColQ) (i : Nat) (hi : i < col.length) :
    (shiftCol lag col)[i]? = if i < lag then some none else col[i - lag]? := by
  unfold shiftCol
  rw [List.getElem?_take_of_lt hi]
  by_cases h : i < lag
  · rw [if_pos h,
      List.getElem?_append_left (by simpa [List.length_replicate] using h),
      List.getElem?_replicate_of_lt h]
  · rw [if_neg h,
      List.getElem?_append_right (by simpa [List.length_replicate] using not_lt.mp h)]
    simp [List.length_replicate]

theorem getCol_eq_none_iff {α : Type} (df : DF α) (x : String) :
    getCol df x = none ↔ df.any (fun p => p.1 = x) = false := by
  unfold getCol
  rw [Option.map_eq_none', List.find?_eq_none]
  constructor
  · intro h
    rw [← Bool.not_eq_true, List.any_eq_true]
    rintro ⟨p, hp, hpx⟩
    exact h p hp hpx
  · intro h p hp hpx
    rw [← Bool.not_eq_true, List.any_eq_true] at h
    exact h ⟨p, hp, hpx⟩

theorem getCol_addlag_not_target (lag : Nat) :
    ∀ (cols : List String) (df : DF (Option ℚ)) (x : String),
      (∀ c ∈ cols, lagName c lag ≠ x) →
      getCol (addlagfeatures df cols lag) x = getCol df x := by
  intro cols
  induction cols with
  | nil => intro df x _; rfl
  | cons c rest ih =>
    intro df x h
    unfold addlagfeatures
    rw [ih _ x (fun d hd => h d (by simp [hd]))]
    unfold lagStep
    cases hc : getCol df c with
    | none => rfl
    | some col => exact getCol_setCol_ne df (lagName c lag) x _ (h c (by simp))

theorem getCol_lagStep_ne (lag : Nat) (df : DF (Option ℚ))
    (c c2 : String) (hne : lagName c lag ≠ c2) :
    getCol (lagStep lag df c) c2 = getCol df c2 := by
  unfold lagStep
  cases hc : getCol df c with
  | none => rfl
  | some col => exact getCol_setCol_ne df (lagName c lag) c2 _ hne

theorem getCol_addlag_target (lag : Nat) :
    ∀ (cols : List String) (df : DF (Option ℚ)),
      (∀ c1 ∈ cols, ∀ c2 ∈ cols, lagName c1 lag ≠ c2) →
      (cols.map (fun c => lagName c lag)).Nodup →
      ∀ c ∈ cols, ∀ col, getCol df c = some col →
        getCol (addlagfeatures df cols lag) (lagName c lag) =
          some (shiftCol lag col) := by
  intro cols
  induction cols with
  | nil => intro df _ _ c hc; cases hc
  | cons c' rest ih =>
    intro df hsep hinj c hc col hcol
    rcases List.mem_cons.mp hc with rfl | hcrest
    · unfold addlagfeatures
      have hstep : lagStep lag df c = setCol df (lagName c lag) (shiftCol lag col) := by
        unfold lagStep
        rw [hcol]
      rw [hstep, getCol_addlag_not_target lag rest _ (lagName c lag) ?hne]
      · exact getCol_setCol_self df (lagName c lag) (shiftCol lag col)
      case hne =>
        intro d hd hcon
        have hmem : lagName c lag ∈ List.map (fun x => lagName x lag) rest := by
          rw [← hcon]
          exact List.mem_map_of_mem _ hd
        exact absurd hmem (by simpa using (List.nodup_cons.mp hinj).1)
    · unfold addlagfeatures
      have hpres : getCol (lagStep lag df c') c = some col := by
        rw [getCol_lagStep_ne lag df c' c (hsep c' (by simp) c (by simp [hcrest]))]
        exact hcol
      exact ih _ (fun a ha b hb => hsep a (by simp [ha]) b (by simp [hb]))
        (List.nodup_cons.mp hinj).2 c hcrest col hpres

theorem getCol_append_single_ne {α : Type} (df : DF α) (name c2 : String)
    (vals : List α) (hne : name ≠ c2) :
    getCol (df ++ [(name, vals)]) c2 = getCol df c2 := by
  unfold getCol
  rw [List.find?_append]
  have : List.find? (fun p => p.1 = c2) [(name, vals)] = none := by
    simp [List.find?, hne]
  rw [this]
  simp

theorem map_fst_addlag (lag : Nat) :
    ∀ (cols : List String) (df : DF (Option ℚ)),
      (∀ c ∈ cols, lagName c lag ∉ df.map Prod.fst) →
      (cols.map (fun c => lagName c lag)).Nodup →
      (∀ c1 ∈ cols, ∀ c2 ∈ cols, lagName c1 lag ≠ c2) →
      (addlagfeatures df cols lag).map Prod.fst =
        df.map Prod.fst ++
          (cols.filter (fun c => (getCol df c).isSome)).map
            (fun c => lagName c lag) := by
  intro cols
  induction cols with
  | nil => intro df _ _ _; simp [addlagfeatures]
  | cons c rest ih =>
    intro df hfresh hinj hsep
    unfold addlagfeatures
    cases hc : getCol df c with
    | none =>
      have hstep : lagStep lag df c = df := by
        unfold lagStep
        rw [hc]
      rw [hstep, ih df (fun d hd => hfresh d (by simp [hd]))
        (List.nodup_cons.mp hinj).2
        (fun a ha b hb => hsep a (by simp [ha]) b (by simp [hb]))]
      have hfc : (c :: rest).filter (fun d => (getCol df d).isSome) =
          rest.filter (fun d => (getCol df d).isSome) := by
        rw [List.filter_cons]
        simp [hc]
      rw [hfc]
    | some col =>
      have hany : df.any (fun p => p.1 = lagName c lag) = false := by
        rw [← Bool.not_eq_true, List.any_eq_true]
        rintro ⟨p, hp, hpx⟩
        exact hfresh c (by simp) (by
          rw [← of_decide_eq_true hpx]
          exact List.mem_map_of_mem Prod.fst hp)
      have hset : lagStep lag df c = df ++ [(lagName c lag, shiftCol lag col)] := by
        simp only [lagStep, hc]
        unfold setCol
        rw [if_neg (by simp [hany])]
      rw [hset]
      have hfresh2 : ∀ d ∈ rest,
          lagName d lag ∉ (df ++ [(lagName c lag, shiftCol lag col)]).map Prod.fst := by
        intro d hd
        rw [List.map_append, List.mem_append]
        rintro (h | h)
        · exact hfresh d (by simp [hd]) h
        · simp only [List.map_cons, List.map_nil, List.mem_singleton] at h
          have hmem : lagName c lag ∈ List.map (fun x => lagName x lag) rest := by
            rw [← h]
            exact List.mem_map_of_mem _ hd
          exact absurd hmem (by simpa using (List.nodup_cons.mp hinj).1)
      rw [ih _ hfresh2 (List.nodup_cons.mp hinj).2
        (fun a ha b hb => hsep a (by simp [ha]) b (by simp [hb]))]
      have hfilter : rest.filter
          (fun d => (getCol (df ++ [(lagName c lag, shiftCol lag col)]) d).isSome) =
          rest.filter (fun d => (getCol df d).isSome) := by
        apply List.filter_congr
        intro d hd
        rw [getCol_append_single_ne df _ d _ (hsep c (by simp) d (by simp [hd]))]
      rw [hfilter]
      have hfc : (c :: rest).filter (fun d => (getCol df d).isSome) =
          c :: rest.filter (fun d => (getCol df d).isSome) := by
        rw [List.filter_cons]
        simp [hc]
      rw [hfc]
      simp

/-- C10: for every requested source column present in the (collision-free)
dataframe, the lag operation adds the column `f"{c}Lag{lag}"` holding the
source column shifted by `lag`: row `i` holds the source's row `i - lag`
value when `i ≥ lag` and the missing marker when `i < lag`; requested
columns absent from the dataframe add no column, and the added columns are
exactly the derived names of the present requested columns, appended after
the existing columns. -/
theorem C10_addlagfeatures (df : DF (Option ℚ)) (cols : List String) (lag : Nat)
    (hfresh : ∀ c ∈ cols, lagName c lag ∉ df.map Prod.fst)
    (hinj : (cols.map (fun c => lagName c lag)).Nodup)
    (hsep : ∀ c1 ∈ cols, ∀ c2 ∈ cols, lagName c1 lag ≠ c2) :
    (∀ c ∈ cols, ∀ col, getCol df c = some col →
      getCol (addlagfeatures df cols lag) (lagName c lag) =
        some (shiftCol lag col) ∧
      (shiftCol lag col).length = col.length ∧
      (∀ i, i < col.length →
        (shiftCol lag col)[i]? = if i < lag then some none else col[i - lag]?)) ∧
    (addlagfeatures df cols lag).map Prod.fst =
      df.map Prod.fst ++
        (cols.filter (fun c => (getCol df c).isSome)).map
          (fun c => lagName c lag) :=
  ⟨fun c hc col hcol =>
    ⟨getCol_addlag_target lag cols df hsep hinj c hc col hcol,
     shiftCol_length lag col,
     fun i hi => shiftCol_getElem lag col i hi⟩,
   map_fst_addlag lag cols df hfresh hinj hsep⟩

/-- Witness for C10: a two-column frame, one requested column present and
one absent; the derived `aLag1` column is appended and holds the shifted
values. -/
theorem C10_addlagfeatures_witness :
    (∀ c ∈ ["a", "b"], ∀ col,
      getCol [("a", [some 1, some 2, some 3]), ("Date", [none, none, none])] c
        = some col →
      getCol (addlagfeatures
          [("a", [some 1, some 2, some 3]), ("Date", [none, none, none])]
          ["a", "b"] 1) (lagName c 1) = some (shiftCol 1 col) ∧
      (shiftCol 1 col).length = col.length ∧
      (∀ i, i < col.length →
        (shiftCol 1 col)[i]? = if i < 1 then some none else col[i - 1]?)) ∧
    (addlagfeatures [("a", [some 1, some 2, some 3]), ("Date", [none, none, none])]
        ["a", "b"] 1).map Prod.fst =
      [("a", [some 1, some 2, some 3]), ("Date", [none, none, none])].map Prod.fst ++
        ((["a", "b"].filter (fun c =>
          (getCol [("a", [some 1, some 2, some 3]),
            ("Date", [none, none, none])] c).isSome)).map (fun c => lagName c 1)) :=
  C10_addlagfeatures _ ["a", "b"] 1 (by decide) (by decide) (by decide)

/-! ## Cleaner: missing-value filling -/

theorem map_fst_updateCol {α : Type} (name : String) (f : List α → List α)
    (df : DF α) : (updateCol name f df).map Prod.fst = df.map Prod.fst := by
  unfold updateCol
  rw [List.map_map]
  apply List.map_congr_left
  intro p _
  by_cases h : p.1 = name <;> simp [h]

theorem foldl_updateCol_map_fst (g : ColQ → ColQ) :
    ∀ (ts : List String) (df : DF (Option ℚ)),
      ((ts.foldl (fun d c => updateCol c g d) df).map Prod.fst) = df.map Prod.fst := by
  intro ts
  induction ts with
  | nil => intro df; rfl
  | cons t ts ih =>
    intro df
    simp only [List.foldl_cons]
    rw [ih, map_fst_updateCol]

theorem getElem?_updateCol_ne {α : Type} (name : String) (f : List α → List α)
    (df : DF α) (i : Nat) (p : String × List α) (hdf : df[i]? = some p)
    (hne : p.1 ≠ name) : (updateCol name f df)[i]? = some p := by
  unfold updateCol
  rw [List.getElem?_map, hdf]
  simp [hne]

theorem getElem?_updateCol_eq {α : Type} (name : String) (f : List α → List α)
    (df : DF α) (i : Nat) (p : String × List α) (hdf : df[i]? = some p)
    (heq : p.1 = name) : (updateCol name f df)[i]? = some (p.1, f p.2) := by
  unfold updateCol
  rw [List.getElem?_map, hdf]
  simp [heq]

theorem foldl_updateCol_not_mem (g : ColQ → ColQ) :
    ∀ (ts : List String) (df : DF (Option ℚ)) (i : Nat) (p : String × ColQ),
      df[i]? = some p → p.1 ∉ ts →
      (ts.foldl (fun d c => updateCol c g d) df)[i]? = some p := by
  intro ts
  induction ts with
  | nil => intro df i p h _; exact h
  | cons t ts ih =>
    intro df i p h hmem
    simp only [List.foldl_cons]
    exact ih _ i p
      (getElem?_updateCol_ne t g df i p h (fun he => hmem (by simp [he])))
      (fun hm => hmem (by simp [hm]))

theorem foldl_updateCol_mem (g : ColQ → ColQ) :
    ∀ (ts : List String) (df : DF (Option ℚ)) (i : Nat) (p : String × ColQ),
      df[i]? = some p → p.1 ∈ ts → ts.Nodup →
      (ts.foldl (fun d c => updateCol c g d) df)[i]? = some (p.1, g p.2) := by
  intro ts
  induction ts with
  | nil => intro df i p _ h _; cases h
  | cons t ts ih =>
    intro df i p h hmem hnd
    simp only [List.foldl_cons]
    by_cases heq : p.1 = t
    · have hup : (updateCol t g df)[i]? = some (p.1, g p.2) :=
        getElem?_updateCol_eq t g df i p h heq
      have hnotin : (p.1, g p.2).1 ∉ ts := by
        rw [heq] at hmem ⊢
        exact (List.nodup_cons.mp hnd).1
      exact foldl_updateCol_not_mem g ts _ i _ hup hnotin
    · have hmem2 : p.1 ∈ ts := by
        rcases List.mem_cons.mp hmem with he | hm
        · exact absurd he heq
        · exact hm
      exact ih _ i p (getElem?_updateCol_ne t g df i p h heq) hmem2
        (List.nodup_cons.mp hnd).2

theorem ffillAux_length : ∀ (col : ColQ) (last : Option ℚ),
    (ffillAux last col).length = col.length := by
  intro col
  induction col with
  | nil => intro last; rfl
  | cons c rest ih =>
    intro last
    cases c with
    | none => simp [ffillAux, ih]
    | some x => simp [ffillAux, ih]

theorem fillColumn_length (strategy : FillStrategy) (col : ColQ) :
    (fillColumn strategy col).length = col.length := by
  cases strategy with
  | median => simp [fillColumn, fillna]
  | mean => simp [fillColumn, fillna]
  | zero => simp [fillColumn, fillna]
  | ffill => exact ffillAux_length col none

theorem presentValues_eq_nil_iff (col : ColQ) :
    presentValues col = [] ↔ ∀ v ∈ col, v = none := by
  unfold presentValues
  rw [List.filterMap_eq_nil_iff]
  simp

theorem medianOpt_eq_none_iff (col : ColQ) :
    medianOpt col = none ↔ ∀ v ∈ col, v = none := by
  unfold medianOpt
  rw [← presentValues_eq_nil_iff]
  constructor
  · intro h
    by_cases hxs : (presentValues col).mergeSort (fun a b => decide (a ≤ b)) = []
    · have hlen := (List.mergeSort_perm (presentValues col)
        (fun a b => decide (a ≤ b))).length_eq
      rw [hxs] at hlen
      have hz : (presentValues col).length = 0 := by simpa using hlen.symm
      exact List.length_eq_zero.mp hz
    · rw [if_neg hxs] at h
      by_cases hodd : ((presentValues col).mergeSort
          (fun a b => decide (a ≤ b))).length % 2 = 1
      · rw [if_pos hodd] at h
        cases h
      · rw [if_neg hodd] at h
        cases h
  · intro h
    have hxs : (presentValues col).mergeSort (fun a b => decide (a ≤ b)) = [] := by
      rw [h, List.mergeSort_nil]
    rw [if_pos hxs]

theorem meanOpt_eq_none_iff (col : ColQ) :
    meanOpt col = none ↔ ∀ v ∈ col, v = none := by
  unfold meanOpt
  rw [← presentValues_eq_nil_iff]
  by_cases h : presentValues col = []
  · simp [h]
  · simp [h]

theorem fillna_marker (v : Option ℚ) (col : ColQ) (j : Nat)
    (h : (fillna v col)[j]? = some none) : col[j]? = some none ∧ v = none := by
  unfold fillna at h
  rw [List.getElem?_map] at h
  cases hc : col[j]? with
  | none => rw [hc] at h; cases h
  | some c =>
    rw [hc] at h
    cases c with
    | none =>
      simp only [Option.map_some'] at h
      refine ⟨rfl, ?_⟩
      injection h
    | some x =>
      simp only [Option.map_some'] at h
      injection h with h1
      cases h1

theorem ffillAux_marker : ∀ (col : ColQ) (last : Option ℚ) (j : Nat),
    (ffillAux last col)[j]? = some none →
    last = none ∧ ∀ v ∈ col.take (j + 1), v = none := by
  intro col
  induction col with
  | nil =>
    intro last j h
    simp [ffillAux] at h
  | cons c rest ih =>
    intro last j h
    cases c with
    | none =>
      cases j with
      | zero =>
        simp only [ffillAux, List.getElem?_cons_zero] at h
        injection h with h1
        subst h1
        refine ⟨rfl, ?_⟩
        intro v hv
        simp only [List.take_succ_cons, List.take_zero] at hv
        simpa using hv
      | succ j =>
        simp only [ffillAux, List.getElem?_cons_succ] at h
        obtain ⟨hlast, hrest⟩ := ih last j h
        refine ⟨hlast, ?_⟩
        intro v hv
        rw [List.take_succ_cons] at hv
        rcases List.mem_cons.mp hv with rfl | hv2
        · rfl
        · exact hrest v hv2
    | some x =>
      cases j with
      | zero =>
        simp only [ffillAux, List.getElem?_cons_zero] at h
        cases h
      | succ j =>
        simp only [ffillAux, List.getElem?_cons_succ] at h
        obtain ⟨hlast, _⟩ := ih (some x) j h
        cases hlast

theorem fillColumn_marker (strategy : FillStrategy) (col : ColQ) (j : Nat)
    (h : (fillColumn strategy col)[j]? = some none) :
    missingAllowed strategy col j := by
  cases strategy with
  | zero =>
    obtain ⟨_, hv⟩ := fillna_marker (some 0) col j h
    cases hv
  | median =>
    obtain ⟨_, hv⟩ := fillna_marker (medianOpt col) col j h
    exact (medianOpt_eq_none_iff col).mp hv
  | mean =>
    obtain ⟨_, hv⟩ := fillna_marker (meanOpt col) col j h
    exact (meanOpt_eq_none_iff col).mp hv
  | ffill => exact (ffillAux_marker col none j h).2

/-- C4 (amended): after `handlemissing` with pairwise-distinct targets, every
non-targeted column is unchanged (and column labels are unchanged), every
targeted column is the filled column of the same length, and a missing
marker survives in a targeted column only in the excusable cases: never for
`zero`; for `median`/`mean` only when the column had no present value at
all; for `ffill` only in a leading run of missing cells. -/
theorem C4_handlemissing (df : DF (Option ℚ)) (strategy : FillStrategy)
    (cols : Option (List String)) (hnd : (targetCols df cols).Nodup) :
    ((handlemissing df strategy cols).map Prod.fst = df.map Prod.fst) ∧
    (∀ (i : Nat) (p : String × ColQ), df[i]? = some p →
      p.1 ∉ targetCols df cols →
      (handlemissing df strategy cols)[i]? = some p) ∧
    (∀ (i : Nat) (p : String × ColQ), df[i]? = some p →
      p.1 ∈ targetCols df cols →
      (handlemissing df strategy cols)[i]? = some (p.1, fillColumn strategy p.2) ∧
      (fillColumn strategy p.2).length = p.2.length ∧
      (∀ j, (fillColumn strategy p.2)[j]? = some none →
        missingAllowed strategy p.2 j)) := by
  refine ⟨foldl_updateCol_map_fst (fillColumn strategy) (targetCols df cols) df,
    ?_, ?_⟩
  · intro i p hdf hmem
    exact foldl_updateCol_not_mem _ _ df i p hdf hmem
  · intro i p hdf hmem
    exact ⟨foldl_updateCol_mem _ _ df i p hdf hmem hnd,
      fillColumn_length strategy p.2,
      fun j hj => fillColumn_marker strategy p.2 j hj⟩

/-- C4 as frozen is false: forward-filling the targeted column
`[NaN, 1]` leaves its leading missing marker in place. -/
theorem C4_counterexample :
    getCol (handlemissing [("a", [none, some (1 : ℚ)])] FillStrategy.ffill
        (some ["a"])) "a" = some [none, some 1] ∧
    none ∈ [none, some (1 : ℚ)] :=
  ⟨by decide, by decide⟩

/-- Witness for C4 at a two-column frame with an explicit one-column target
list and the `zero` strategy. -/
theorem C4_handlemissing_witness :
    ((handlemissing [("a", [none, some 1]), ("b", [some 2])] FillStrategy.zero
        (some ["a"])).map Prod.fst =
      [("a", [none, some (1 : ℚ)]), ("b", [some 2])].map Prod.fst) ∧
    (∀ (i : Nat) (p : String × ColQ),
      [("a", [none, some (1 : ℚ)]), ("b", [some 2])][i]? = some p →
      p.1 ∉ targetCols [("a", [none, some 1]), ("b", [some 2])] (some ["a"]) →
      (handlemissing [("a", [none, some 1]), ("b", [some 2])] FillStrategy.zero
        (some ["a"]))[i]? = some p) ∧
    (∀ (i : Nat) (p : String × ColQ),
      [("a", [none, some (1 : ℚ)]), ("b", [some 2])][i]? = some p →
      p.1 ∈ targetCols [("a", [none, some 1]), ("b", [some 2])] (some ["a"]) →
      (handlemissing [("a", [none, some 1]), ("b", [some 2])] FillStrategy.zero
        (some ["a"]))[i]? = some (p.1, fillColumn FillStrategy.zero p.2) ∧
      (fillColumn FillStrategy.zero p.2).length = p.2.length ∧
      (∀ j, (fillColumn FillStrategy.zero p.2)[j]? = some none →
        missingAllowed FillStrategy.zero p.2 j)) :=
  C4_handlemissing [("a", [none, some 1]), ("b", [some 2])] FillStrategy.zero
    (some ["a"]) (by decide)

/-! ## The prediction run -/

theorem C5_skip (pre post : List Dataset) (d : Dataset) (testCols : List String)
    (htest : d.test = some testCols)
    (hskip : TARGETCOL ∉ d.train ∨ TARGETCOL ∉ testCols ∨
      discovercandidatefeatures d.train = []) :
    summaryOf d = none ∧ datasetLogs d ≠ [] ∧
    runpredictions (pre ++ d :: post) =
      ((runpredictions pre).1 ++ datasetLogs d ++ (runpredictions post).1,
       (runpredictions pre).2 ++ (runpredictions post).2) := by
  have hout : processdataset d = DatasetOutcome.missingTarget ∨
      processdataset d = DatasetOutcome.noCandidates := by
    by_cases htgt : TARGETCOL ∈ d.train ∧ TARGETCOL ∈ testCols
    · right
      have hcand : discovercandidatefeatures d.train = [] := by
        rcases hskip with h | h | h
        · exact absurd htgt.1 h
        · exact absurd htgt.2 h
        · exact h
      simp only [processdataset, htest]
      rw [if_pos htgt, if_pos hcand]
    · left
      simp only [processdataset, htest]
      rw [if_neg htgt]
  have hsum : summaryOf d = none := by
    unfold summaryOf
    rcases hout with h | h <;> rw [h]
  have hlog : datasetLogs d ≠ [] := by
    unfold datasetLogs
    rcases hout with h | h <;> rw [h] <;> simp
  refine ⟨hsum, hlog, ?_⟩
  unfold runpredictions
  rw [List.flatMap_append, List.flatMap_cons, List.filterMap_append,
    List.filterMap_cons, hsum]
  simp [List.append_assoc]

theorem C5_skip_witness :
    summaryOf ⟨"ds1", ["Open"], some ["Open"], none, fun _ => 0, fun _ => 0⟩
      = none ∧
    datasetLogs ⟨"ds1", ["Open"], some ["Open"], none, fun _ => 0, fun _ => 0⟩
      ≠ [] ∧
    runpredictions ([] ++ ⟨"ds1", ["Open"], some ["Open"], none,
        fun _ => 0, fun _ => 0⟩ :: []) =
      ((runpredictions []).1 ++
        datasetLogs ⟨"ds1", ["Open"], some ["Open"], none, fun _ => 0, fun _ => 0⟩
        ++ (runpredictions []).1,
       (runpredictions []).2 ++ (runpredictions []).2) :=
  C5_skip [] [] ⟨"ds1", ["Open"], some ["Open"], none, fun _ => 0, fun _ => 0⟩
    ["Open"] rfl (Or.inl (by decide))

theorem C6_production (pre post : List Dataset) (d : Dataset)
    (testCols : List String) (sel : SelState)
    (htest : d.test = some testCols)
    (htgt : TARGETCOL ∈ d.train ∧ TARGETCOL ∈ testCols)
    (hcand : ¬ discovercandidatefeatures d.train = [])
    (hseleq : trainandselectfeatures d.train testCols d.acc
      (discovercandidatefeatures d.train) = sel)
    (hsel : sel.hasModel = true) :
    ∃ e w, processdataset d = DatasetOutcome.summary e w ∧
      e.dataset = d.basename ∧
      e.accTest = pythonRound4 sel.bestaccuracy ∧
      e.bestFeatures = sel.bestfeatures ∧
      (w = true ↔ ∃ cc, d.current = some cc ∧ ∀ f ∈ sel.bestfeatures, f ∈ cc) ∧
      (e.accCurrent = none ↔ ¬ ∃ cc, d.current = some cc ∧
        (∀ f ∈ sel.bestfeatures, f ∈ cc) ∧ TARGETCOL ∈ cc) ∧
      ((∃ cc, d.current = some cc ∧ (∀ f ∈ sel.bestfeatures, f ∈ cc) ∧
          TARGETCOL ∈ cc) →
        e.accCurrent = some (pythonRound4 (d.curracc sel.bestfeatures))) ∧
      runpredictions (pre ++ d :: post) =
        ((runpredictions pre).1 ++ (runpredictions post).1,
         (runpredictions pre).2 ++ e :: (runpredictions post).2) := by
  have hfinish : ∀ (e : SummaryEntry) (w : Bool),
      processdataset d = DatasetOutcome.summary e w →
      runpredictions (pre ++ d :: post) =
        ((runpredictions pre).1 ++ (runpredictions post).1,
         (runpredictions pre).2 ++ e :: (runpredictions post).2) := by
    intro e w hproc
    have hsum : summaryOf d = some e := by
      unfold summaryOf
      rw [hproc]
    have hlog : datasetLogs d = [] := by
      unfold datasetLogs
      rw [hproc]
    unfold runpredictions
    rw [List.flatMap_append, List.flatMap_cons, List.filterMap_append,
      List.filterMap_cons, hsum, hlog]
    simp
  cases hcur : d.current with
  | none =>
    have hbody : processdataset d = DatasetOutcome.summary
        ⟨d.basename, pythonRound4 sel.bestaccuracy, none, sel.bestfeatures⟩
        false := by
      simp only [processdataset, htest, hcur]
      rw [if_pos htgt, if_neg hcand, hseleq, if_pos hsel]
    refine ⟨_, _, hbody, rfl, rfl, rfl, ?_, ?_, ?_, hfinish _ _ hbody⟩
    · constructor
      · intro h
        cases h
      · rintro ⟨cc, hcc, _⟩
        cases hcc
    · constructor
      · rintro _ ⟨cc, hcc, _⟩
        cases hcc
      · intro _
        rfl
    · rintro ⟨cc, hcc, _⟩
      cases hcc
  | some cc =>
    by_cases hfeat : ∀ f ∈ sel.bestfeatures, f ∈ cc
    · by_cases htc : TARGETCOL ∈ cc
      · have hbody : processdataset d = DatasetOutcome.summary
            ⟨d.basename, pythonRound4 sel.bestaccuracy,
              some (pythonRound4 (d.curracc sel.bestfeatures)),
              sel.bestfeatures⟩ true := by
          simp only [processdataset, htest, hcur]
          rw [if_pos htgt, if_neg hcand, hseleq, if_pos hsel, if_pos hfeat,
            if_pos htc]
        refine ⟨_, _, hbody, rfl, rfl, rfl, ?_, ?_, ?_, hfinish _ _ hbody⟩
        · exact ⟨fun _ => ⟨cc, rfl, hfeat⟩, fun _ => rfl⟩
        · constructor
          · intro h
            cases h
          · intro h
            exact absurd ⟨cc, rfl, hfeat, htc⟩ h
        · intro _
          rfl
      · have hbody : processdataset d = DatasetOutcome.summary
            ⟨d.basename, pythonRound4 sel.bestaccuracy, none,
              sel.bestfeatures⟩ true := by
          simp only [processdataset, htest, hcur]
          rw [if_pos htgt, if_neg hcand, hseleq, if_pos hsel, if_pos hfeat,
            if_neg htc]
        refine ⟨_, _, hbody, rfl, rfl, rfl, ?_, ?_, ?_, hfinish _ _ hbody⟩
        · exact ⟨fun _ => ⟨cc, rfl, hfeat⟩, fun _ => rfl⟩
        · constructor
          · rintro _ ⟨cc2, hcc2, _, htc2⟩
            injection hcc2 with hcc2
            subst hcc2
            exact htc htc2
          · intro _
            rfl
        · rintro ⟨cc2, hcc2, _, htc2⟩
          injection hcc2 with hcc2
          subst hcc2
          exact absurd htc2 htc
    · have hbody : processdataset d = DatasetOutcome.summary
          ⟨d.basename, pythonRound4 sel.bestaccuracy, none,
            sel.bestfeatures⟩ false := by
        simp only [processdataset, htest, hcur]
        rw [if_pos htgt, if_neg hcand, hseleq, if_pos hsel, if_neg hfeat]
      refine ⟨_, _, hbody, rfl, rfl, rfl, ?_, ?_, ?_, hfinish _ _ hbody⟩
      · constructor
        · intro h
          cases h
        · rintro ⟨cc2, hcc2, hf2⟩
          injection hcc2 with hcc2
          subst hcc2
          exact absurd hf2 hfeat
      · constructor
        · rintro _ ⟨cc2, hcc2, hf2, _⟩
          injection hcc2 with hcc2
          subst hcc2
          exact hfeat hf2
        · intro _
          rfl
      · rintro ⟨cc2, hcc2, hf2, _⟩
        injection hcc2 with hcc2
        subst hcc2
        exact absurd hf2 hfeat

theorem C6_production_witness :
    ∃ e w, processdataset ⟨"ds2", ["FeatureA", "FeatureB", "Target"],
        some ["FeatureA", "FeatureB", "Target"],
        some ["FeatureA", "FeatureB", "Target"], fun _ => 1, fun _ => 1⟩
        = DatasetOutcome.summary e w ∧
      e.dataset = "ds2" ∧
      e.accTest = pythonRound4 1 ∧
      e.bestFeatures = ["FeatureA", "FeatureB"] ∧
      (w = true ↔ ∃ cc, (some ["FeatureA", "FeatureB", "Target"] :
          Option (List String)) = some cc ∧
        ∀ f ∈ ["FeatureA", "FeatureB"], f ∈ cc) ∧
      (e.accCurrent = none ↔ ¬ ∃ cc, (some ["FeatureA", "FeatureB", "Target"] :
          Option (List String)) = some cc ∧
        (∀ f ∈ ["FeatureA", "FeatureB"], f ∈ cc) ∧ TARGETCOL ∈ cc) ∧
      ((∃ cc, (some ["FeatureA", "FeatureB", "Target"] :
          Option (List String)) = some cc ∧
        (∀ f ∈ ["FeatureA", "FeatureB"], f ∈ cc) ∧ TARGETCOL ∈ cc) →
        e.accCurrent = some (pythonRound4 1)) ∧
      runpredictions ([] ++ ⟨"ds2", ["FeatureA", "FeatureB", "Target"],
        some ["FeatureA", "FeatureB", "Target"],
        some ["FeatureA", "FeatureB", "Target"], fun _ => 1, fun _ => 1⟩ :: []) =
        ((runpredictions []).1 ++ (runpredictions []).1,
         (runpredictions []).2 ++ e :: (runpredictions []).2) :=
  C6_production [] [] ⟨"ds2", ["FeatureA", "FeatureB", "Target"],
      some ["FeatureA", "FeatureB", "Target"],
      some ["FeatureA", "FeatureB", "Target"], fun _ => 1, fun _ => 1⟩
    ["FeatureA", "FeatureB", "Target"] ⟨1, ["FeatureA", "FeatureB"], true⟩
    rfl (by decide) (by decide) (by decide) rfl

end AlgoTrading
